import Mathlib

/-!
Verification development for the Terraform TUI block locator
(`terraform.py`): a shallow embedding of `extract_block_content`,
`extract_fallback_structure` and the commit step of `edit_block_content`,
together with theorems about the block-location and edit behaviour.

The Python code locates blocks with a fixed set of regular expressions.
Every regex used by the code is deterministic (no alternative ever
overlaps another at the same position, and every quantified class is
disjoint from the literal that follows it), so each one is embedded as a
structurally recursive matcher over `List Char` whose behaviour at a
position coincides with the regex engine's; `re.search` is embedded as
the least position at which the matcher succeeds, and `re.finditer` as
repeated search continuing after each (non-empty) match.

Block names are embedded as literal text.  This is faithful for every
name free of regex metacharacters (Terraform identifiers are); the code
interpolates names into patterns without `re.escape`, so for
metacharacter names the real code raises `re.error` instead — that
divergence is recorded with claim C3 and is outside this embedding.
-/

namespace TerraformTui

/-- Python `\s` for ASCII text (also the character class of `str.strip`). -/
def isPySpace (c : Char) : Bool :=
  c == ' ' || c == '\t' || c == '\n' || c == '\r' || c == Char.ofNat 11 || c == Char.ofNat 12

def dquote : Char := '"'

def squote : Char := Char.ofNat 39

def lbrace : Char := '{'

def rbrace : Char := '}'

def eqCh : Char := '='

def nlCh : Char := '\n'

def bslash : Char := Char.ofNat 92

def isQuote (c : Char) : Bool := c == dquote || c == squote

def defCh : Char := 'x'

/-- Python `str.strip()`. -/
def pyStrip (l : List Char) : List Char :=
  ((l.dropWhile isPySpace).reverse.dropWhile isPySpace).reverse

/-- Python `needle in haystack` substring test (empty needle occurs). -/
def occursIn (pat : List Char) : List Char → Bool
  | [] => pat.isEmpty
  | c :: r => pat.isPrefixOf (c :: r) || occursIn pat r

/-- Least index `i ≥ start` with `raw[i] = target` (Python `str.find(ch, start)`). -/
def findCharFromGo (target : Char) : List Char → Nat → Option Nat
  | [], _ => none
  | c :: r, i => if c == target then some i else findCharFromGo target r (i + 1)

def findCharFrom (raw : List Char) (target : Char) (start : Nat) : Option Nat :=
  findCharFromGo target (raw.drop start) start

/-- Greatest index `q < e` with `raw[q] = '\n'` (Python `str.rfind('\n', 0, e)`). -/
def rfindNl (raw : List Char) : Nat → Option Nat
  | 0 => none
  | e + 1 => if raw.getD e defCh == nlCh then some e else rfindNl raw e

/-! ### Matcher primitives

A matcher consumes a prefix of its input and returns the rest (and for
group-capturing patterns, the captured groups).  Each primitive mirrors
one regex construct as it behaves inside the code's (deterministic)
patterns. -/

/-- A literal run of characters. -/
def lit (kw : List Char) (l : List Char) : Option (List Char) :=
  if kw.isPrefixOf l then some (l.drop kw.length) else none

/-- `\s+` — one or more whitespace characters, greedy. -/
def wsPlus : List Char → Option (List Char)
  | [] => none
  | c :: r => if isPySpace c then some ((c :: r).dropWhile isPySpace) else none

/-- `\s*` — any whitespace run, greedy (never fails). -/
def wsStarP (l : List Char) : Option (List Char) :=
  some (l.dropWhile isPySpace)

/-- A single character of a class. -/
def chOne (p : Char → Bool) : List Char → Option (List Char)
  | [] => none
  | c :: r => if p c then some r else none

/-- `[c]+` for a class `p`, greedy (followed in every use by a literal
outside the class, so maximal munch is exact). -/
def chClass1 (p : Char → Bool) : List Char → Option (List Char)
  | [] => none
  | c :: r => if p c then some ((c :: r).dropWhile p) else none

/-- A sequence of matchers, each consuming a prefix. -/
def pSeq : List (List Char → Option (List Char)) → List Char → Option (List Char)
  | [], l => some l
  | f :: fs, l =>
    match f l with
    | some r => pSeq fs r
    | none => none

/-- `"([^"]+)"` — double-quoted non-empty group, returning the group. -/
def quotedGroup (l : List Char) : Option (List Char × List Char) :=
  match l with
  | [] => none
  | c :: r =>
    if c == dquote then
      let g := r.takeWhile (fun x => !(x == dquote))
      if g.isEmpty then none
      else
        match r.dropWhile (fun x => !(x == dquote)) with
        | d :: r2 => if d == dquote then some (r2, g) else none
        | [] => none
    else none

/-! ### Search and iteration (re.search / re.finditer) -/

/-- `re.search`: the match at the least succeeding position, together
with that position and the matched text (`group(0)`). -/
def reSearchG {α : Type} (m : List Char → Option (List Char × α)) :
    List Char → Option (Nat × List Char × α)
  | [] =>
    match m [] with
    | some (_, a) => some (0, [], a)
    | none => none
  | c :: rest =>
    match m (c :: rest) with
    | some (r, a) => some (0, (c :: rest).take ((c :: rest).length - r.length), a)
    | none =>
      match reSearchG m rest with
      | some (i, t, a) => some (i + 1, t, a)
      | none => none

def mUnit (m : List Char → Option (List Char)) : List Char → Option (List Char × Unit) :=
  fun l => (m l).map (fun r => (r, ()))

/-- `re.search` for a group-free pattern: position and matched text. -/
def reSearchTxt (m : List Char → Option (List Char)) (l : List Char) :
    Option (Nat × List Char) :=
  (reSearchG (mUnit m) l).map (fun x => (x.1, x.2.1))

/-- `re.finditer`: non-overlapping matches, scanning left to right
(every matcher used here consumes at least one character). -/
def findIterG {α : Type} (m : List Char → Option (List Char × α)) :
    Nat → Nat → List Char → List (Nat × List Char × α)
  | 0, _, _ => []
  | fuel + 1, base, l =>
    match reSearchG m l with
    | none => []
    | some (i, t, a) =>
      (base + i, t, a) :: findIterG m fuel (base + i + t.length) (l.drop (i + t.length))

/-- Least `j` in `[i, i+fuel)` with `p j` (linear scan). -/
def findFirstIdx (p : Nat → Bool) : Nat → Nat → Option Nat
  | _, 0 => none
  | i, fuel + 1 => if p i then some i else findFirstIdx p (i + 1) fuel

/-! ### The bounded-depth brace regex

`terraform`, `required_providers` and `locals` blocks are matched by the
pattern `kw\s*{(?:[^{}]|{(?:[^{}]|{[^{}]*})*})*}`, which accepts a brace
block whose internal nesting is at most two levels deep (three open
braces in total).  At every point of that pattern exactly one
alternative can apply, so it is equivalent to this depth-counting scan
that fails when a fourth open brace appears. -/

/-- Scan after an opening brace at current depth `d`; succeed (returning
the rest) at the brace that closes the block, fail at end of input or
when a `{` would exceed `limit` open braces. -/
def braceGo (limit : Nat) : List Char → Nat → Option (List Char)
  | [], _ => none
  | c :: r, d =>
    if c == lbrace then
      if d < limit then braceGo limit r (d + 1) else none
    else if c == rbrace then
      if d == 1 then some r else braceGo limit r (d - 1)
    else braceGo limit r d

/-- The whole `{...}` part of the bounded-depth pattern. -/
def braceMatchLim (limit : Nat) : List Char → Option (List Char)
  | c :: r => if c == lbrace then braceGo limit r 1 else none
  | [] => none

/-- Decides that `l` is exactly one brace block (from its `{` to the
matching `}`) whose nesting never exceeds `limit` open braces. -/
def braceOkGo (limit : Nat) : List Char → Nat → Bool
  | [], _ => false
  | c :: r, d =>
    if c == lbrace then
      decide (d < limit) && braceOkGo limit r (d + 1)
    else if c == rbrace then
      if d == 1 then r.isEmpty else braceOkGo limit r (d - 1)
    else braceOkGo limit r d

def braceBlockOk (limit : Nat) : List Char → Bool
  | c :: r => c == lbrace && braceOkGo limit r 1
  | [] => false

/-! ### String constants (messages, kinds, keywords) -/

def nfStr : String := "Block content not found"

def nfEqStr : String := "Block content not found (equals sign expected)"

def nfObStr : String := "Block content not found (no opening brace)"

def nfIbStr : String := "Block content not found (incomplete block)"

def savedStr : String := "Changes saved successfully"

def staleStr : String := "Could not locate the original block in the file"

def tfStr : String := "terraform"

def rpStr : String := "required_providers"

def localsStr : String := "locals"

def resourceStr : String := "resource"

def dataStr : String := "data"

def variableStr : String := "variable"

def outputStr : String := "output"

def providerStr : String := "provider"

def moduleStr : String := "module"

/-- The eight top-level block kinds known to the fallback extractor. -/
def knownKinds : List String :=
  [resourceStr, dataStr, variableStr, outputStr, providerStr, moduleStr, localsStr, tfStr]

/-- The seven keywords that terminate an equals-style span. -/
def kwList7 : List (List Char) :=
  [resourceStr.toList, providerStr.toList, variableStr.toList, outputStr.toList,
   localsStr.toList, moduleStr.toList, dataStr.toList]

/-! ### Kind-specific matchers -/

/-- `terraform\s*{...}` with the bounded-depth brace pattern. -/
def terraformM (l : List Char) : Option (List Char) :=
  match lit tfStr.toList l with
  | some r => braceMatchLim 3 (r.dropWhile isPySpace)
  | none => none

/-- `required_providers\s*{...}`. -/
def requiredProvidersM (l : List Char) : Option (List Char) :=
  match lit rpStr.toList l with
  | some r => braceMatchLim 3 (r.dropWhile isPySpace)
  | none => none

/-- `locals\s*{...}`. -/
def localsM (l : List Char) : Option (List Char) :=
  match lit localsStr.toList l with
  | some r => braceMatchLim 3 (r.dropWhile isPySpace)
  | none => none

/-- All `locals` pattern matches of the raw text, in order
(`re.finditer`): position and matched text. -/
def localsIter (raw : List Char) : List (Nat × List Char) :=
  (findIterG (mUnit localsM) (raw.length + 1) 0 raw).map (fun e => (e.1, e.2.1))

/-- `["\']?name["\']?\s*=` searched anywhere in a locals block's text
(the code escapes the name here, so literal matching is exact). -/
def varAssignHere (n : List Char) (l : List Char) : Bool :=
  let afterName := fun (l2 : List Char) =>
    let l3 := match l2 with
      | c :: r => if isQuote c then r else l2
      | [] => l2
    match l3.dropWhile isPySpace with
    | c :: _ => c == eqCh
    | [] => false
  (match l with
   | c :: r => isQuote c && (n.isPrefixOf r && afterName (r.drop n.length))
   | [] => false)
  || (n.isPrefixOf l && afterName (l.drop n.length))

def hasVarAssign (n : List Char) : List Char → Bool
  | [] => false
  | c :: r => varAssignHere n (c :: r) || hasVarAssign n r

/-! ### General-path patterns (lines 186–209 of the source)

`escaped_block_name` only escapes double quotes, which the regex engine
reads back as literal quotes, so each pattern matches the name
literally. -/

def dqW (n : List Char) : List Char := dquote :: (n ++ [dquote])

def sqW (n : List Char) : List Char := squote :: (n ++ [squote])

/-- `bt\s+"n"\s*{` -/
def pat1 (bt n : List Char) : List Char → Option (List Char) :=
  pSeq [lit bt, wsPlus, lit (dqW n), wsStarP, lit [lbrace]]

/-- `bt\s+["\'][^"\']+["\']\\s+"n"\s*{` — note `\\s+` in the raw f-string
is a literal backslash followed by one or more letters `s`. -/
def pat2 (bt n : List Char) : List Char → Option (List Char) :=
  pSeq [lit bt, wsPlus, chOne isQuote, chClass1 (fun c => !(isQuote c)), chOne isQuote,
        lit [bslash], chClass1 (fun c => c == 's'), lit (dqW n), wsStarP, lit [lbrace]]

/-- `bt\s+n\s*{` -/
def pat3 (bt n : List Char) : List Char → Option (List Char) :=
  pSeq [lit bt, wsPlus, lit n, wsStarP, lit [lbrace]]

/-- `bt\s+"n"\s*=` -/
def pat4 (bt n : List Char) : List Char → Option (List Char) :=
  pSeq [lit bt, wsPlus, lit (dqW n), wsStarP, lit [eqCh]]

/-- `bt\s+n\s*=` -/
def pat5 (bt n : List Char) : List Char → Option (List Char) :=
  pSeq [lit bt, wsPlus, lit n, wsStarP, lit [eqCh]]

/-- `bt\s+'n'\s*{` -/
def pat6 (bt n : List Char) : List Char → Option (List Char) :=
  pSeq [lit bt, wsPlus, lit (sqW n), wsStarP, lit [lbrace]]

/-- `bt\s+'n'\s*=` -/
def pat7 (bt n : List Char) : List Char → Option (List Char) :=
  pSeq [lit bt, wsPlus, lit (sqW n), wsStarP, lit [eqCh]]

/-- `resource\s+"n"\s+"[^"]+"\s*{` -/
def pat8 (n : List Char) : List Char → Option (List Char) :=
  pSeq [lit resourceStr.toList, wsPlus, lit (dqW n), wsPlus,
        lit [dquote], chClass1 (fun c => !(c == dquote)), lit [dquote], wsStarP, lit [lbrace]]

/-- `resource\s+"[^"]+"\s+"n"\s*{` -/
def pat9 (n : List Char) : List Char → Option (List Char) :=
  pSeq [lit resourceStr.toList, wsPlus,
        lit [dquote], chClass1 (fun c => !(c == dquote)), lit [dquote], wsPlus,
        lit (dqW n), wsStarP, lit [lbrace]]

/-- The pattern list in source order, each tagged with whether its
pattern string contains an `=` (the equals-style test at line 253). -/
def patternsFor (bt n : List Char) : List ((List Char → Option (List Char)) × Bool) :=
  [(pat1 bt n, false), (pat2 bt n, false), (pat3 bt n, false),
   (pat4 bt n, true), (pat5 bt n, true), (pat6 bt n, false), (pat7 bt n, true)]
  ++ (if bt = resourceStr.toList then [(pat8 n, false), (pat9 n, false)] else [])

/-- Lines 211–228: the earliest-starting match over all patterns wins,
ties broken by pattern order.  Only the first match of each pattern can
be minimal, so `re.search` per pattern suffices. -/
def selectPat : List ((List Char → Option (List Char)) × Bool) → List Char → Option (Nat × Bool)
  | [], _ => none
  | (m, e) :: ps, raw =>
    match reSearchTxt m raw, selectPat ps raw with
    | none, r => r
    | some (i, _), none => some (i, e)
    | some (i, _), some (j, e2) => if i ≤ j then some (i, e) else some (j, e2)

/-! ### The flexible fallback pattern (lines 233–247)

`(?:^|\n)\s*bt\s+(?:"[^"]*"\s+)?(?:"?n"?|'?n'?)` with `re.MULTILINE`;
the regex does backtrack over the optional quoted-type group and over
each optional quote, and those retries are spelled out here. -/

/-- `"?n"?` with a fixed quote character `q`: try the quote-led form
first, then the bare name; a trailing quote is consumed if present. -/
def nameAltQ (q : Char) (n : List Char) (l : List Char) : Option (List Char) :=
  let trail := fun (l2 : List Char) =>
    match l2 with
    | c :: r => if c == q then some r else some l2
    | [] => some l2
  match l with
  | c :: r =>
    if c == q && n.isPrefixOf r then trail (r.drop n.length)
    else if n.isPrefixOf l then trail (l.drop n.length)
    else none
  | [] => if n.isPrefixOf l then trail (l.drop n.length) else none

/-- `(?:"?n"?|'?n'?)`. -/
def nameAlt (n : List Char) (l : List Char) : Option (List Char) :=
  match nameAltQ dquote n l with
  | some r => some r
  | none => nameAltQ squote n l

/-- `"[^"]*"\s+` — the optional quoted-type group. -/
def quotedTypeGroup (l : List Char) : Option (List Char) :=
  pSeq [lit [dquote], fun l2 => some (l2.dropWhile (fun c => !(c == dquote))),
        lit [dquote], wsPlus] l

/-- The body after the line anchor. -/
def flexBody (bt n : List Char) (l : List Char) : Option (List Char) :=
  let l1 := l.dropWhile isPySpace
  match lit bt l1 with
  | none => none
  | some l2 =>
    match wsPlus l2 with
    | none => none
    | some l3 =>
      match quotedTypeGroup l3 with
      | some l4 =>
        match nameAlt n l4 with
        | some r => some r
        | none => nameAlt n l3
      | none => nameAlt n l3

/-- Match length of the flexible pattern at one position; the `^`
alternative (zero-width, position 0 or after a newline) is tried before
the `\n` alternative (which consumes the newline). -/
def flexAt (bt n : List Char) (prevNl : Bool) (l : List Char) : Option Nat :=
  match (if prevNl then flexBody bt n l else none) with
  | some r => some (l.length - r.length)
  | none =>
    match l with
    | c :: r =>
      if c == nlCh then
        match flexBody bt n r with
        | some r2 => some (r.length + 1 - r2.length)
        | none => none
      else none
    | [] => none

/-- `re.search` of the flexible pattern: start position and match length. -/
def flexSearchGo (bt n : List Char) : Bool → Nat → List Char → Option (Nat × Nat)
  | prevNl, pos, l =>
    match flexAt bt n prevNl l with
    | some len => some (pos, len)
    | none =>
      match l with
      | [] => none
      | c :: r => flexSearchGo bt n (c == nlCh) (pos + 1) r

def flexSearch (bt n : List Char) (raw : List Char) : Option (Nat × Nat) :=
  flexSearchGo bt n true 0 raw

/-- Lines 240–241: advance from `pos` to the first `{` or `=`. -/
def scanBE : List Char → Nat → Nat
  | [], pos => pos
  | c :: r, pos => if c == lbrace || c == eqCh then pos else scanBE r (pos + 1)

/-! ### Extraction endgame: equals-style and brace-style spans -/

/-- Zero-width `^` of `(?:^|\n)` under `re.MULTILINE`, at index `j` of
the slice. -/
def atLineStart (slice : List Char) (j : Nat) : Bool :=
  j == 0 || slice.getD (j - 1) defCh == nlCh

/-- `\s*(resource|provider|variable|output|locals|module|data)\s+` from
the start of `l`. -/
def wsThenKw (l : List Char) : Bool :=
  let l2 := l.dropWhile isPySpace
  kwList7.any (fun kw =>
    kw.isPrefixOf l2 &&
      match (l2.drop kw.length) with
      | c :: _ => isPySpace c
      | [] => false)

/-- The next-block pattern `(?:^|\n)\s*(...)\s+` matches starting at
index `j` of the slice. -/
def nextKwAt (slice : List Char) (j : Nat) : Bool :=
  (atLineStart slice j && wsThenKw (slice.drop j))
  || (slice.getD j defCh == nlCh && decide (j < slice.length) && wsThenKw (slice.drop (j + 1)))

/-- `re.search` of the next-block pattern over `raw_content[eq:]`:
start index of the leftmost match. -/
def nextBlockSearch (slice : List Char) : Option Nat :=
  findFirstIdx (nextKwAt slice) 0 (slice.length + 1)

/-- Lines 256–277: the equals-style span. -/
def equalsFinish (raw : List Char) (start : Nat) : String :=
  match findCharFrom raw eqCh start with
  | none => nfEqStr
  | some eq =>
    match nextBlockSearch (raw.drop eq) with
    | some m =>
      let e0 := eq + m
      let e :=
        match rfindNl raw e0 with
        | some q => if start < q then q else e0
        | none => e0
      String.mk (pyStrip ((raw.drop start).take (e - start)))
    | none => String.mk (pyStrip (raw.drop start))

/-- Lines 281–288: the opening brace within the 200-character window. -/
def fobGo : List Char → Nat → Option Nat
  | [], _ => none
  | c :: r, i => if c == lbrace then some i else fobGo r (i + 1)

def findOpenBrace (raw : List Char) (start : Nat) : Option Nat :=
  fobGo ((raw.drop start).take 200) start

/-- Lines 291–300: the unbounded bracket-counting loop.  The Python loop
reads positions `open+1 .. len-1` in order, stopping early when the
count reaches zero; this runs over exactly that suffix and returns the
final count and the number of characters consumed. -/
def bracketRun : List Char → Nat → Nat × Nat
  | [], count => (count, 0)
  | c :: r, count =>
    if count == 0 then (count, 0)
    else
      let count2 := if c == lbrace then count + 1 else if c == rbrace then count - 1 else count
      let res := bracketRun r count2
      (res.1, res.2 + 1)

/-- Lines 279–307: the brace-style span. -/
def braceFinish (raw : List Char) (start : Nat) : String :=
  match findOpenBrace raw start with
  | none => nfObStr
  | some ob =>
    let res := bracketRun (raw.drop (ob + 1)) 1
    if res.1 == 0 then String.mk ((raw.drop start).take (ob + 1 + res.2 - start))
    else nfIbStr

def finishFromPattern (raw : List Char) (start : Nat) (isEq : Bool) : String :=
  if isEq then equalsFinish raw start else braceFinish raw start

/-! ### extract_block_content -/

/-- `extract_block_content(raw_content, block_type, block_name)`
(lines 117–307 of the source). -/
def extract_block_content (raw bt n : String) : String :=
  let rawL := raw.toList
  if bt = tfStr then
    if n = rpStr then
      match reSearchTxt terraformM rawL with
      | some (_, t) =>
        match reSearchTxt requiredProvidersM t with
        | some (_, r) => String.mk r
        | none => String.mk t
      | none => nfStr
    else
      match reSearchTxt terraformM rawL with
      | some (_, t) => String.mk t
      | none => nfStr
  else if bt = localsStr then
    let ms := localsIter rawL
    if ms.length == 1 || n == "" then
      match ms with
      | m :: _ => String.mk m.2
      | [] => nfStr
    else
      match ms.find? (fun m => hasVarAssign n.toList m.2) with
      | some m => String.mk m.2
      | none =>
        match ms with
        | m :: _ => String.mk m.2
        | [] => nfStr
  else
    match selectPat (patternsFor bt.toList n.toList) rawL with
    | some (start, isEq) => finishFromPattern rawL start isEq
    | none =>
      match flexSearch bt.toList n.toList rawL with
      | none => nfStr
      | some (start, mlen) =>
        let pos := scanBE (rawL.drop (start + mlen)) (start + mlen)
        if pos < rawL.length then
          if rawL.getD pos defCh == eqCh then equalsFinish rawL start
          else braceFinish rawL start
        else braceFinish rawL start

/-! ### edit_block_content — the commit step

Lines 352–368 of the source: after the external editor returns, the
current file content is read, the captured block text is substituted
(Python `str.replace`, which replaces every occurrence), and the file is
written only when the captured text is still present.  The temp-file and
editor I/O surrounding this is at the system boundary; the commit step
itself is the pure function below, returning
(success, message, new file content). -/

/-- Python `str.replace(old, new)` for non-empty `old`: scan left to
right, replacing each occurrence and resuming after it. -/
def replGo (old new : List Char) : Nat → List Char → List Char
  | 0, s => s
  | _ + 1, [] => []
  | fuel + 1, c :: r =>
    if old.isPrefixOf (c :: r) then new ++ replGo old new fuel ((c :: r).drop old.length)
    else c :: replGo old new fuel r

/-- Python `str.replace(old, new)` (all occurrences; an empty `old`
interleaves `new` at every position). -/
def pyReplace (s old new : List Char) : List Char :=
  if old.isEmpty then new ++ s.flatMap (fun c => c :: new)
  else replGo old new s.length s

/-- The edit-commit step: `(success, message, new file content)`; when
the captured block is absent the file content is returned unchanged (no
write happens). -/
def edit_block_content (original block edited : String) : Bool × String × String :=
  if occursIn block.toList original.toList then
    (true, savedStr, String.mk (pyReplace original.toList block.toList edited.toList))
  else
    (false, staleStr, original)

/-! ### extract_fallback_structure (lines 49–114) -/

/-- The nested mapping built by the fallback extractor: insertion-ordered
keys, as in a Python dict. -/
inductive FTree : Type where
  | node : List (String × FTree) → FTree
deriving Repr

def FTree.keys : FTree → List String
  | .node l => l.map (fun p => p.1)

def setAssoc (k : String) (v : FTree) : List (String × FTree) → List (String × FTree)
  | [] => [(k, v)]
  | (k2, v2) :: r => if k2 = k then (k2, v) :: r else (k2, v2) :: setAssoc k v r

/-- `d[k] = v` — replace in place, else append. -/
def fSet (k : String) (v : FTree) : FTree → FTree
  | .node l => .node (setAssoc k v l)

/-- `if k not in d: d[k] = {}`. -/
def fEnsure (k : String) (t : FTree) : FTree :=
  if t.keys.contains k then t else fSet k (FTree.node []) t

/-- `d[k]` (defaulting to an empty dict; the code only reads ensured keys). -/
def fGet (k : String) : FTree → FTree
  | .node l => ((l.find? (fun p => p.1 = k)).map (fun p => p.2)).getD (FTree.node [])

/-- Python `.split()[0]` of a matched text that starts with a keyword. -/
def splitFirst (l : List Char) : String :=
  String.mk (l.takeWhile (fun c => !(isPySpace c)))

/-- `(\w+)` — ASCII word characters. -/
def isWordChar (c : Char) : Bool := c.isAlphanum || c == '_'

/-- One match of `(\w+)\s*=\s*`: rest of input and the captured name. -/
def varNameM (l : List Char) : Option (List Char × List Char) :=
  match l with
  | [] => none
  | c :: _ =>
    if isWordChar c then
      let run := l.takeWhile isWordChar
      let l2 := (l.dropWhile isWordChar).dropWhile isPySpace
      match l2 with
      | d :: l3 => if d == eqCh then some (l3.dropWhile isPySpace, run) else none
      | [] => none
    else none

/-- `re.findall(r'(\w+)\s*=\s*', locals_section)`. -/
def findVarNames (sect : List Char) : List (List Char) :=
  (findIterG varNameM (sect.length + 1) 0 sect).map (fun e => e.2.2)

/-- `resource\s+"([^"]+)"\s+"([^"]+)"` (and the identical `data` form). -/
def fTwoGroups (kw : List Char) (l : List Char) : Option (List Char × List (List Char)) :=
  match lit kw l with
  | none => none
  | some a =>
    match wsPlus a with
    | none => none
    | some b =>
      match quotedGroup b with
      | none => none
      | some (c, g1) =>
        match wsPlus c with
        | none => none
        | some d =>
          match quotedGroup d with
          | none => none
          | some (e, g2) => some (e, [g1, g2])

/-- `kw\s+"([^"]+)"` for variable/output/module. -/
def fOneGroup (kw : List Char) (l : List Char) : Option (List Char × List (List Char)) :=
  match lit kw l with
  | none => none
  | some a =>
    match wsPlus a with
    | none => none
    | some b =>
      match quotedGroup b with
      | none => none
      | some (c, g1) => some (c, [g1])

/-- The class `[^"\s{]` of the provider pattern. -/
def provNameCh (c : Char) : Bool := !(c == dquote) && !(isPySpace c) && !(c == lbrace)

/-- `([^"\s{]+)"?` — the provider name group and its optional trailing
quote. -/
def providerCore (l2 : List Char) : Option (List Char × List (List Char)) :=
  match l2 with
  | [] => none
  | c :: _ =>
    if provNameCh c then
      let g := l2.takeWhile provNameCh
      let r := l2.dropWhile provNameCh
      let r2 := match r with
        | d :: r3 => if d == dquote then r3 else r
        | [] => r
      some (r2, [g])
    else none

/-- `provider\s+"?([^"\s{]+)"?`. -/
def fProvider (l : List Char) : Option (List Char × List (List Char)) :=
  match lit providerStr.toList l with
  | none => none
  | some a =>
    match wsPlus a with
    | none => none
    | some b =>
      match b with
      | c :: r => if c == dquote then providerCore r else providerCore b
      | [] => providerCore b

/-- `kw\s+{` for locals/terraform (zero capturing groups). -/
def fZeroGroups (kw : List Char) (l : List Char) : Option (List Char × List (List Char)) :=
  match lit kw l with
  | none => none
  | some a =>
    match wsPlus a with
    | none => none
    | some b =>
      match b with
      | c :: r => if c == lbrace then some (r, []) else none
      | [] => none

/-- The eight anchor patterns of lines 57–66, in source order, each
paired with its keyword. -/
def fallbackPatterns : List (List Char × (List Char → Option (List Char × List (List Char)))) :=
  [(resourceStr.toList, fTwoGroups resourceStr.toList),
   (dataStr.toList, fTwoGroups dataStr.toList),
   (variableStr.toList, fOneGroup variableStr.toList),
   (outputStr.toList, fOneGroup outputStr.toList),
   (providerStr.toList, fProvider),
   (moduleStr.toList, fOneGroup moduleStr.toList),
   (localsStr.toList, fZeroGroups localsStr.toList),
   (tfStr.toList, fZeroGroups tfStr.toList)]

/-- One match's effect on the structure (lines 70–112). -/
def fStep (raw : List Char) (st : FTree) (m : Nat × List Char × List (List Char)) : FTree :=
  let bt := splitFirst m.2.1
  match m.2.2 with
  | [g1, g2] =>
    let st1 := fEnsure bt st
    let sub := fGet bt st1
    let sub1 := fEnsure (String.mk g1) sub
    let inner1 := fSet (String.mk g2) (FTree.node []) (fGet (String.mk g1) sub1)
    fSet bt (fSet (String.mk g1) inner1 sub1) st1
  | [g1] =>
    let st1 := fEnsure bt st
    fSet bt (fSet (String.mk g1) (FTree.node []) (fGet bt st1)) st1
  | _ =>
    let st1 := fEnsure bt st
    let st2 :=
      if bt == tfStr && occursIn rpStr.toList ((raw.drop m.1).take 200) then
        fSet bt (fSet rpStr (FTree.node []) (fGet bt st1)) st1
      else st1
    if bt == localsStr then
      (findVarNames ((raw.drop m.1).take 500)).foldl
        (fun s v => fSet bt (fSet (String.mk v) (FTree.node []) (fGet bt s)) s) st2
    else st2

/-- `extract_fallback_structure(raw_content)` (lines 49–114). -/
def extract_fallback_structure (raw : String) : FTree :=
  fallbackPatterns.foldl
    (fun st pm =>
      (findIterG pm.2 (raw.toList.length + 1) 0 raw.toList).foldl (fStep raw.toList) st)
    (FTree.node [])

/-- Net depth change contributed by one character (used to state the
unterminated-block hypothesis of the bracket loop). -/
def charDelta (c : Char) : Int :=
  if c == lbrace then 1 else if c == rbrace then -1 else 0

def listDelta (l : List Char) : Int := (l.map charDelta).sum

/-- Index of the first occurrence of `pat` in a list (Python `str.find`). -/
def firstOccIdx (pat : List Char) : List Char → Option Nat
  | [] => if pat.isEmpty then some 0 else none
  | c :: r =>
    if pat.isPrefixOf (c :: r) then some 0
    else
      match firstOccIdx pat r with
      | some i => some (i + 1)
      | none => none

/-- Modelled from the spec (claim C1): substitute only the FIRST
occurrence of `s` with `r`, leaving every other byte — including later
identical occurrences — unchanged. -/
def replaceFirstOnly (content s r : List Char) : List Char :=
  match firstOccIdx s content with
  | some i => content.take i ++ r ++ content.drop (i + s.length)
  | none => content

/-! ## Test inputs for witnesses and counterexamples -/

def csTwoResources : String :=
  "resource \"aws_instance\" \"a\" \x7b ami = \"x\" \x7d\nresource \"aws_instance\" \"b\" \x7b ami = \"y\" \x7d"

def csSecondBlock : String := "resource \"aws_instance\" \"b\" \x7b ami = \"y\" \x7d"

def csTfNested : String := "terraform \x7b required_providers \x7b aws = \x7b v = 1 \x7d \x7d \x7d"

def csRpInner : String := "required_providers \x7b aws = \x7b v = 1 \x7d \x7d"

def csTfDeep : String := "terraform \x7b a = \x7b b = \x7b c = \x7b d = 1 \x7d \x7d \x7d \x7d"

def csLocalsTwoVars : String := "locals \x7b a = 1\n b = 2 \x7d"

def csLocalsNested : String := "resource \"r\" \"n\" \x7b locals \x7b x = 1 \x7d \x7d"

def csLocalsNestedBlock : String := "locals \x7b x = 1 \x7d"

def csEqMulti : String := "variable \"x\" = \x7b\n a = 1\n\x7d\nresource \"r\" \"s\" \x7b\n\x7d"

def csEqMultiGot : String := "variable \"x\" = \x7b\n a = 1"

def csEqMultiClaim : String := "variable \"x\" = \x7b\n a = 1\n\x7d"

def csEqSingle : String := "variable \"x\" = 1\nresource \"r\" \"s\" \x7b\x7d"

def csEqSingleSpan : String := "variable \"x\" = 1"

def csNoBlocks : String := "x = 1"

def bStr : String := "b"

def xStr : String := "x"

def emptyStr : String := ""

def csAbc : String := "abc"

def csUnterminated : String := "\x7b a \x7b \x7d"

def csAbab : String := "abab"

def csAb : String := "ab"

def csCd : String := "cd"

def csCdcd : String := "cdcd"

def csCdab : String := "cdab"

def csXabxab : String := "xabxab"

def csZup : String := "Z"

def csXZxZ : String := "xZxZ"

def csPre : String := "x = 1\n"

def csWs : String := " "

def csBody : String := "\x7b required_providers \x7b aws = \x7b v = 1 \x7d \x7d \x7d"

def csPost : String := "\nmodule \"m\" \x7b\x7d"

def csXy : String := "xy"

def csZ : String := "z"

/-! ## Helper lemmas: search characterization and brace balance -/

theorem reSearchG_least {α : Type} (m : List Char → Option (List Char × α)) :
    ∀ (l : List Char) (k : Nat) (r : List Char) (a : α),
      (∀ p, p < k → m (l.drop p) = none) →
      m (l.drop k) = some (r, a) → k ≤ l.length →
      reSearchG m l = some (k, (l.drop k).take ((l.drop k).length - r.length), a) := by
  intro l
  induction l with
  | nil =>
    intro k r a _ hm hk
    have hk0 : k = 0 := Nat.le_zero.mp hk
    subst hk0
    simp only [List.drop_nil] at hm
    simp [reSearchG, hm]
  | cons c rest ih =>
    intro k r a hb hm hk
    cases k with
    | zero =>
      simp only [List.drop_zero] at hm
      simp [reSearchG, hm]
    | succ k2 =>
      have h0 : m (c :: rest) = none := by
        have := hb 0 (Nat.succ_pos k2)
        simpa using this
      have ih2 := ih k2 r a
        (fun p hp => by
          have := hb (p + 1) (by omega)
          simpa using this)
        (by simpa using hm)
        (by simpa using hk)
      simp [reSearchG, h0, ih2, List.drop_succ_cons]

theorem reSearchTxt_least (m : List Char → Option (List Char)) (l : List Char) (k : Nat)
    (r : List Char)
    (hb : ∀ p, p < k → m (l.drop p) = none)
    (hm : m (l.drop k) = some r) (hk : k ≤ l.length) :
    reSearchTxt m l = some (k, (l.drop k).take ((l.drop k).length - r.length)) := by
  have h := reSearchG_least (mUnit m) l k r ()
    (fun p hp => by simp [mUnit, hb p hp]) (by simp [mUnit, hm]) hk
  simp [reSearchTxt, h]

/-- Completeness of the bounded-depth scan: a block accepted by
`braceOkGo` is consumed exactly, leaving any continuation. -/
theorem braceOkGo_run (limit : Nat) :
    ∀ (l : List Char) (d : Nat) (post : List Char),
      braceOkGo limit l d = true → braceGo limit (l ++ post) d = some post := by
  intro l
  induction l with
  | nil =>
    intro d post h
    simp [braceOkGo] at h
  | cons c r ih =>
    intro d post h
    simp only [braceOkGo] at h
    simp only [List.cons_append, braceGo]
    by_cases h1 : (c == lbrace) = true
    · simp only [h1, if_true] at h ⊢
      rw [Bool.and_eq_true] at h
      obtain ⟨hlt, hrest⟩ := h
      simp only [of_decide_eq_true hlt, if_true]
      exact ih (d + 1) post hrest
    · simp only [Bool.not_eq_true] at h1
      simp only [h1, Bool.false_eq_true, if_false] at h ⊢
      by_cases h2 : (c == rbrace) = true
      · simp only [h2, if_true] at h ⊢
        by_cases h3 : (d == 1) = true
        · simp only [h3, if_true] at h ⊢
          simp [List.isEmpty_iff.mp h]
        · simp only [Bool.not_eq_true] at h3
          simp only [h3, Bool.false_eq_true, if_false] at h ⊢
          exact ih (d - 1) post h
      · simp only [Bool.not_eq_true] at h2
        simp only [h2, Bool.false_eq_true, if_false] at h ⊢
        exact ih d post h

/-- Soundness of the bounded-depth scan with respect to brace counting:
the accepted text closes exactly `d` more braces than it opens, and it
does so only at its very end. -/
theorem braceOkGo_counts (limit : Nat) :
    ∀ (l : List Char) (d : Nat), 0 < d → braceOkGo limit l d = true →
      l.count rbrace = l.count lbrace + d ∧
      ∀ k, k < l.length → (l.take k).count rbrace < (l.take k).count lbrace + d := by
  intro l
  induction l with
  | nil =>
    intro d hd h
    simp [braceOkGo] at h
  | cons c r ih =>
    intro d hd h
    simp only [braceOkGo] at h
    by_cases h1 : (c == lbrace) = true
    · have hc : c = lbrace := by simpa using h1
      subst hc
      simp only [h1, if_true] at h
      rw [Bool.and_eq_true] at h
      obtain ⟨_, hrest⟩ := h
      obtain ⟨hcnt, hpre⟩ := ih (d + 1) (by omega) hrest
      have e1 : (lbrace == rbrace) = false := by decide
      have e2 : (lbrace == lbrace) = true := by decide
      constructor
      · simp [List.count_cons, e1, e2]
        omega
      · intro k hk
        cases k with
        | zero =>
          simpa using hd
        | succ k2 =>
          have hk2 : k2 < r.length := by simpa [List.length_cons] using hk
          have := hpre k2 hk2
          simp [List.take_succ_cons, List.count_cons, e1, e2]
          omega
    · simp only [Bool.not_eq_true] at h1
      simp only [h1, Bool.false_eq_true, if_false] at h
      by_cases h2 : (c == rbrace) = true
      · have hc : c = rbrace := by simpa using h2
        subst hc
        simp only [h2, if_true] at h
        have e1 : (rbrace == rbrace) = true := by decide
        by_cases h3 : (d == 1) = true
        · have hd1 : d = 1 := by simpa using h3
          subst hd1
          simp only [h3, if_true] at h
          have hr : r = [] := List.isEmpty_iff.mp h
          subst hr
          constructor
          · simp [List.count_cons, e1, h1]
          · intro k hk
            have hk0 : k = 0 := by
              have : k < 1 := by simpa using hk
              omega
            subst hk0
            simp
        · simp only [Bool.not_eq_true] at h3
          simp only [h3, Bool.false_eq_true, if_false] at h
          have hne1 : d ≠ 1 := by simpa using h3
          have hd2 : 2 ≤ d := by omega
          obtain ⟨hcnt, hpre⟩ := ih (d - 1) (by omega) h
          constructor
          · simp [List.count_cons, e1, h1]
            omega
          · intro k hk
            cases k with
            | zero =>
              simpa using hd
            | succ k2 =>
              have hk2 : k2 < r.length := by simpa [List.length_cons] using hk
              have := hpre k2 hk2
              simp [List.take_succ_cons, List.count_cons, e1, h1]
              omega
      · simp only [Bool.not_eq_true] at h2
        simp only [h2, Bool.false_eq_true, if_false] at h
        obtain ⟨hcnt, hpre⟩ := ih d hd h
        constructor
        · simp [List.count_cons, h1, h2]
          omega
        · intro k hk
          cases k with
          | zero =>
            simpa using hd
          | succ k2 =>
            have hk2 : k2 < r.length := by simpa [List.length_cons] using hk
            have := hpre k2 hk2
            simp [List.take_succ_cons, List.count_cons, h1, h2]
            omega

theorem braceBlockOk_elim {limit : Nat} {l : List Char} (h : braceBlockOk limit l = true) :
    ∃ t, l = lbrace :: t ∧ braceOkGo limit t 1 = true := by
  cases l with
  | nil => simp [braceBlockOk] at h
  | cons c r =>
    simp only [braceBlockOk, Bool.and_eq_true] at h
    have hc : c = lbrace := by simpa using h.1
    exact ⟨r, by rw [hc], h.2⟩

/-- A block accepted by `braceBlockOk` has balanced braces and every
proper non-empty prefix has an excess of open braces: the final `}` is
the one matching the opening `{`. -/
theorem braceBlockOk_balanced {limit : Nat} {l : List Char} (h : braceBlockOk limit l = true) :
    l.count lbrace = l.count rbrace ∧
    ∀ k, 0 < k → k < l.length → (l.take k).count rbrace < (l.take k).count lbrace := by
  obtain ⟨t, rfl, ht⟩ := braceBlockOk_elim h
  obtain ⟨hc, hp⟩ := braceOkGo_counts limit t 1 Nat.one_pos ht
  have e1 : (lbrace == rbrace) = false := by decide
  have e2 : (lbrace == lbrace) = true := by decide
  constructor
  · simp only [List.count_cons, e1, e2, if_true, Bool.false_eq_true, if_false]
    omega
  · intro k hk0 hkl
    cases k with
    | zero => omega
    | succ k2 =>
      have hk2 : k2 < t.length := by simpa [List.length_cons] using hkl
      have := hp k2 hk2
      simp only [List.take_succ_cons, List.count_cons, e1, e2, if_true,
        Bool.false_eq_true, if_false]
      omega

/-- The terraform pattern matches exactly the keyword, the whitespace
run, and the brace block, at a position where the text continues with
them. -/
theorem terraformM_at (ws t post : List Char)
    (hws : ∀ c ∈ ws, isPySpace c = true)
    (ht : braceOkGo 3 t 1 = true) :
    terraformM (tfStr.toList ++ (ws ++ ((lbrace :: t) ++ post))) = some post := by
  unfold terraformM
  have hlit : lit tfStr.toList (tfStr.toList ++ (ws ++ ((lbrace :: t) ++ post)))
      = some (ws ++ ((lbrace :: t) ++ post)) := by
    unfold lit
    rw [if_pos (List.isPrefixOf_iff_prefix.mpr (List.prefix_append _ _)), List.drop_left]
  rw [hlit]
  have hdw : (ws ++ ((lbrace :: t) ++ post)).dropWhile isPySpace = lbrace :: (t ++ post) := by
    rw [List.dropWhile_append]
    have hnil : ws.dropWhile isPySpace = [] := List.dropWhile_eq_nil_iff.mpr hws
    simp [hnil, List.dropWhile_cons, (by decide : isPySpace lbrace = false)]
  show braceMatchLim 3 ((ws ++ ((lbrace :: t) ++ post)).dropWhile isPySpace) = some post
  rw [hdw]
  simp only [braceMatchLim, (by decide : (lbrace == lbrace) = true), if_true]
  exact braceOkGo_run 3 t 1 post ht

theorem findFirstIdx_some (p : Nat → Bool) :
    ∀ (fuel i m : Nat), findFirstIdx p i fuel = some m →
      p m = true ∧ i ≤ m ∧ ∀ j, i ≤ j → j < m → p j = false := by
  intro fuel
  induction fuel with
  | zero =>
    intro i m h
    simp [findFirstIdx] at h
  | succ f ih =>
    intro i m h
    simp only [findFirstIdx] at h
    by_cases hp : p i = true
    · rw [if_pos hp] at h
      injection h with h
      subst h
      exact ⟨hp, Nat.le_refl i, fun j h1 h2 => by omega⟩
    · rw [if_neg hp] at h
      obtain ⟨h1, h2, h3⟩ := ih (i + 1) m h
      refine ⟨h1, by omega, fun j hj1 hj2 => ?_⟩
      by_cases hji : j = i
      · subst hji
        exact Bool.eq_false_iff.mpr hp
      · exact h3 j (by omega) hj2

/-- `nextBlockSearch` finds the leftmost start of the next-block
pattern, as `re.search` does. -/
theorem nextBlockSearch_some (slice : List Char) (m : Nat)
    (h : nextBlockSearch slice = some m) :
    nextKwAt slice m = true ∧ ∀ j, j < m → nextKwAt slice j = false := by
  obtain ⟨h1, _, h3⟩ := findFirstIdx_some (nextKwAt slice) (slice.length + 1) 0 m h
  exact ⟨h1, fun j hj => h3 j (Nat.zero_le j) hj⟩

/-- `rfindNl` returns the greatest newline index below the bound, as
`str.rfind` does. -/
theorem rfindNl_some (raw : List Char) :
    ∀ (e q : Nat), rfindNl raw e = some q →
      q < e ∧ raw.getD q defCh = nlCh ∧ ∀ j, q < j → j < e → raw.getD j defCh ≠ nlCh := by
  intro e
  induction e with
  | zero =>
    intro q h
    simp [rfindNl] at h
  | succ e2 ih =>
    intro q h
    simp only [rfindNl] at h
    by_cases hc : (raw.getD e2 defCh == nlCh) = true
    · rw [if_pos hc] at h
      injection h with h
      subst h
      exact ⟨Nat.lt_succ_self _, by simpa using hc, fun j h1 h2 => by omega⟩
    · rw [if_neg hc] at h
      obtain ⟨h1, h2, h3⟩ := ih q h
      refine ⟨by omega, h2, fun j hj1 hj2 => ?_⟩
      by_cases hje : j = e2
      · subst hje
        simpa using hc
      · exact h3 j hj1 (by omega)

/-! ## Helper lemmas: the unbounded bracket loop -/

theorem bracketRun_no_zero :
    ∀ (l : List Char) (count : Nat),
      (∀ k, k ≤ l.length → (count : Int) + listDelta (l.take k) ≠ 0) →
      (bracketRun l count).1 ≠ 0 ∧ (bracketRun l count).2 = l.length := by
  intro l
  induction l with
  | nil =>
    intro count h
    have h0 := h 0 (Nat.le_refl 0)
    simp [listDelta] at h0
    simp [bracketRun]
    exact_mod_cast h0
  | cons c r ih =>
    intro count h
    have hc0 : count ≠ 0 := by
      have h0 := h 0 (Nat.zero_le _)
      simp [listDelta] at h0
      exact_mod_cast h0
    have hcb : (count == 0) = false := by simpa using hc0
    have hrun : bracketRun (c :: r) count
        = ((bracketRun r (if c == lbrace then count + 1 else if c == rbrace then count - 1
             else count)).1,
           (bracketRun r (if c == lbrace then count + 1 else if c == rbrace then count - 1
             else count)).2 + 1) := by
      simp only [bracketRun, hcb, Bool.false_eq_true, if_false]
    have hstep : ((if c == lbrace then count + 1 else if c == rbrace then count - 1
        else count : Nat) : Int) = (count : Int) + charDelta c := by
      by_cases h1 : (c == lbrace) = true
      · simp [h1, charDelta]
      · by_cases h2 : (c == rbrace) = true
        · have hk1 : 1 ≤ count := Nat.one_le_iff_ne_zero.mpr hc0
          simp [h1, h2, charDelta]
          omega
        · simp [h1, h2, charDelta]
    have hshift : ∀ k, k ≤ r.length →
        ((if c == lbrace then count + 1 else if c == rbrace then count - 1
          else count : Nat) : Int) + listDelta (r.take k) ≠ 0 := by
      intro k hk
      rw [hstep]
      have := h (k + 1) (by simpa [List.length_cons] using Nat.succ_le_succ hk)
      simpa [List.take_succ_cons, listDelta, add_assoc] using this
    obtain ⟨h1, h2⟩ := ih _ hshift
    rw [hrun]
    refine ⟨h1, ?_⟩
    rw [h2]
    simp [List.length_cons]

theorem fobGo_some : ∀ (l : List Char) (i ob : Nat), fobGo l i = some ob →
    i ≤ ob ∧ ob < i + l.length := by
  intro l
  induction l with
  | nil =>
    intro i ob h
    simp [fobGo] at h
  | cons c r ih =>
    intro i ob h
    simp only [fobGo] at h
    by_cases hc : (c == lbrace) = true
    · rw [if_pos hc] at h
      injection h with h
      subst h
      simp only [List.length_cons]
      omega
    · rw [if_neg hc] at h
      obtain ⟨h1, h2⟩ := ih (i + 1) ob h
      simp only [List.length_cons]
      omega

theorem findOpenBrace_lt (raw : List Char) (start ob : Nat)
    (h : findOpenBrace raw start = some ob) : ob < raw.length := by
  obtain ⟨h1, h2⟩ := fobGo_some _ start ob h
  have hta : ((raw.drop start).take 200).length ≤ (raw.drop start).length := by
    simp [List.length_take]
  have hdr : (raw.drop start).length = raw.length - start := List.length_drop start raw
  omega

/-! ## Helper lemmas: Python str.replace -/

theorem replGo_congr (old new : List Char) (hold : old ≠ []) :
    ∀ (f1 f2 : Nat) (s : List Char), s.length ≤ f1 → s.length ≤ f2 →
      replGo old new f1 s = replGo old new f2 s := by
  intro f1
  induction f1 with
  | zero =>
    intro f2 s h1 h2
    have hs : s = [] := List.eq_nil_of_length_eq_zero (Nat.le_zero.mp h1)
    subst hs
    cases f2 <;> simp [replGo]
  | succ f ih =>
    intro f2 s h1 h2
    cases s with
    | nil => cases f2 <;> simp [replGo]
    | cons c r =>
      cases f2 with
      | zero => simp [List.length_cons] at h2
      | succ g =>
        have holdlen : 1 ≤ old.length := List.length_pos.mpr hold
        simp only [replGo]
        by_cases hp : old.isPrefixOf (c :: r) = true
        · rw [if_pos hp, if_pos hp]
          congr 1
          apply ih
          · simp only [List.length_drop, List.length_cons]
            simp only [List.length_cons] at h1
            omega
          · simp only [List.length_drop, List.length_cons]
            simp only [List.length_cons] at h2
            omega
        · rw [if_neg hp, if_neg hp]
          congr 1
          apply ih
          · simp only [List.length_cons] at h1
            omega
          · simp only [List.length_cons] at h2
            omega

theorem pyReplace_cons_neg (old new : List Char) (hold : old ≠ []) (c : Char)
    (r : List Char) (hp : old.isPrefixOf (c :: r) = false) :
    pyReplace (c :: r) old new = c :: pyReplace r old new := by
  have hie : old.isEmpty = false := by simpa [List.isEmpty_iff] using hold
  simp only [pyReplace, hie, Bool.false_eq_true, if_false]
  simp only [List.length_cons, replGo, hp, Bool.false_eq_true, if_false]

theorem pyReplace_headmatch (old new : List Char) (hold : old ≠ []) (s : List Char)
    (hp : old.isPrefixOf s = true) :
    pyReplace s old new = new ++ pyReplace (s.drop old.length) old new := by
  have hie : old.isEmpty = false := by simpa [List.isEmpty_iff] using hold
  have holdlen : 1 ≤ old.length := List.length_pos.mpr hold
  cases s with
  | nil =>
    have : old = [] := List.prefix_nil.mp (List.isPrefixOf_iff_prefix.mp hp)
    exact absurd this hold
  | cons c r =>
    simp only [pyReplace, hie, Bool.false_eq_true, if_false]
    simp only [List.length_cons, replGo, hp, if_true]
    congr 1
    apply replGo_congr old new hold
    · simp only [List.length_drop, List.length_cons]
      omega
    · exact Nat.le_refl _

theorem occursIn_of_firstOcc (pat : List Char) :
    ∀ (s : List Char) (i : Nat), firstOccIdx pat s = some i → occursIn pat s = true := by
  intro s
  induction s with
  | nil =>
    intro i h
    simp only [firstOccIdx] at h
    by_cases hie : pat.isEmpty = true
    · simp [occursIn, hie]
    · rw [if_neg hie] at h
      simp at h
  | cons c r ih =>
    intro i h
    simp only [firstOccIdx] at h
    by_cases hp : pat.isPrefixOf (c :: r) = true
    · simp [occursIn, hp]
    · rw [if_neg hp] at h
      cases hf : firstOccIdx pat r with
      | none => rw [hf] at h; simp at h
      | some i2 =>
        simp [occursIn, ih i2 hf]

/-- `pyReplace` replaces the first occurrence and then continues on the
remainder after it, so every occurrence is replaced left to right while
bytes outside the occurrences are kept. -/
theorem pyReplace_firstOcc (old new : List Char) (hold : old ≠ []) :
    ∀ (s : List Char) (i : Nat), firstOccIdx old s = some i →
      pyReplace s old new
        = s.take i ++ new ++ pyReplace (s.drop (i + old.length)) old new ∧
      old.isPrefixOf (s.drop i) = true ∧
      ∀ j, j < i → old.isPrefixOf (s.drop j) = false := by
  intro s
  induction s with
  | nil =>
    intro i h
    simp only [firstOccIdx] at h
    rw [if_neg (by simpa [List.isEmpty_iff] using hold)] at h
    simp at h
  | cons c r ih =>
    intro i h
    simp only [firstOccIdx] at h
    by_cases hp : old.isPrefixOf (c :: r) = true
    · rw [if_pos hp] at h
      injection h with h
      subst h
      refine ⟨?_, by simpa using hp, fun j hj => by omega⟩
      rw [pyReplace_headmatch old new hold _ hp]
      simp
    · rw [if_neg hp] at h
      cases hf : firstOccIdx old r with
      | none => rw [hf] at h; simp at h
      | some i2 =>
        rw [hf] at h
        injection h with h
        subst h
        obtain ⟨h1, h2, h3⟩ := ih i2 hf
        refine ⟨?_, by simpa [List.drop_succ_cons] using h2, ?_⟩
        · rw [pyReplace_cons_neg old new hold c r (Bool.eq_false_iff.mpr hp)]
          have harith : i2 + 1 + old.length = (i2 + old.length) + 1 := by omega
          rw [harith, List.drop_succ_cons, List.take_succ_cons, h1]
          simp
        · intro j hj
          cases j with
          | zero =>
            simp only [List.drop_zero]
            exact Bool.eq_false_iff.mpr hp
          | succ j2 =>
            simpa [List.drop_succ_cons] using h3 j2 (by omega)

/-! ## Helper lemmas: the fallback extractor's top-level keys -/

theorem lit_sound (kw l a : List Char) (h : lit kw l = some a) : l = kw ++ a := by
  unfold lit at h
  by_cases hp : kw.isPrefixOf l = true
  · rw [if_pos hp] at h
    injection h with h
    obtain ⟨t, ht⟩ := List.isPrefixOf_iff_prefix.mp hp
    subst ht
    rw [List.drop_left] at h
    rw [h]
  · rw [if_neg hp] at h
    exact absurd h (by simp)

theorem wsPlus_sound (a b : List Char) (h : wsPlus a = some b) :
    ∃ w, a = w ++ b ∧ w ≠ [] ∧ ∀ c ∈ w, isPySpace c = true := by
  cases a with
  | nil => simp [wsPlus] at h
  | cons c r =>
    simp only [wsPlus] at h
    by_cases hc : isPySpace c = true
    · rw [if_pos hc] at h
      injection h with h
      refine ⟨(c :: r).takeWhile isPySpace, ?_, ?_, ?_⟩
      · rw [← h, List.takeWhile_append_dropWhile]
      · simp [List.takeWhile_cons, hc]
      · intro x hx
        exact List.mem_takeWhile_imp hx
    · rw [if_neg hc] at h
      exact absurd h (by simp)

theorem wsPlus_len (a b : List Char) (h : wsPlus a = some b) : b.length ≤ a.length := by
  obtain ⟨w, rfl, _, _⟩ := wsPlus_sound a b h
  simp [List.length_append]

theorem dropWhile_len_le (p : Char → Bool) : ∀ l : List Char,
    (l.dropWhile p).length ≤ l.length := by
  intro l
  induction l with
  | nil => simp
  | cons c r ih =>
    rw [List.dropWhile_cons]
    by_cases hc : p c = true
    · rw [if_pos hc]
      simp only [List.length_cons]
      omega
    · rw [if_neg hc]

theorem quotedGroup_len (l r g : List Char) (h : quotedGroup l = some (r, g)) :
    r.length ≤ l.length := by
  cases l with
  | nil => simp [quotedGroup] at h
  | cons c r0 =>
    simp only [quotedGroup] at h
    by_cases hc : (c == dquote) = true
    · rw [if_pos hc] at h
      by_cases hg : (r0.takeWhile (fun x => !(x == dquote))).isEmpty = true
      · rw [if_pos hg] at h
        exact absurd h (by simp)
      · rw [if_neg hg] at h
        cases hdw : r0.dropWhile (fun x => !(x == dquote)) with
        | nil =>
          rw [hdw] at h
          exact absurd h (by simp)
        | cons d r2 =>
          rw [hdw] at h
          dsimp only [] at h
          by_cases hd : (d == dquote) = true
          · rw [if_pos hd] at h
            simp only [Option.some.injEq, Prod.mk.injEq] at h
            obtain ⟨h1, _⟩ := h
            subst h1
            have hd2 : (r0.dropWhile (fun x => !(x == dquote))).length ≤ r0.length :=
              dropWhile_len_le _ _
            rw [hdw] at hd2
            simp only [List.length_cons] at hd2 ⊢
            omega
          · rw [if_neg hd] at h
            exact absurd h (by simp)
    · rw [if_neg hc] at h
      exact absurd h (by simp)

theorem providerCore_len_le (l2 rest : List Char) (gs : List (List Char))
    (h : providerCore l2 = some (rest, gs)) : rest.length ≤ l2.length := by
  cases l2 with
  | nil => simp [providerCore] at h
  | cons c r0 =>
    simp only [providerCore] at h
    by_cases hc : provNameCh c = true
    · rw [if_pos hc] at h
      simp only [Option.some.injEq, Prod.mk.injEq] at h
      obtain ⟨h1, _⟩ := h
      have hdw : ((c :: r0).dropWhile provNameCh).length ≤ (c :: r0).length :=
        dropWhile_len_le _ _
      cases hd : (c :: r0).dropWhile provNameCh with
      | nil =>
        rw [hd] at h1
        dsimp only [] at h1
        subst h1
        rw [← hd]
        exact hdw
      | cons d r3 =>
        rw [hd] at h1 hdw
        dsimp only [] at h1
        by_cases hdq : (d == dquote) = true
        · rw [if_pos hdq] at h1
          subst h1
          simp only [List.length_cons] at hdw ⊢
          omega
        · rw [if_neg hdq] at h1
          subst h1
          simp only [List.length_cons] at hdw ⊢
          omega
    · rw [if_neg hc] at h
      exact absurd h (by simp)

theorem takeWhile_append_stop (p : Char → Bool) :
    ∀ (a : List Char) (wc : Char) (tail : List Char),
      (∀ c ∈ a, p c = true) → p wc = false →
      ((a ++ wc :: tail).takeWhile p) = a := by
  intro a
  induction a with
  | nil =>
    intro wc tail _ hwc
    simp [List.takeWhile_cons, hwc]
  | cons c r ih =>
    intro wc tail ha hwc
    have hc : p c = true := ha c (by simp)
    simp [List.takeWhile_cons, hc, ih wc tail (fun x hx => ha x (by simp [hx])) hwc]

theorem take_big_split (kw : List Char) (wc : Char) (tail : List Char) (N : Nat)
    (hN : kw.length + 1 ≤ N) :
    (kw ++ wc :: tail).take N = kw ++ wc :: (tail.take (N - kw.length - 1)) := by
  rw [List.take_append_eq_append_take, List.take_of_length_le (by omega)]
  congr 1
  have he : N - kw.length = (N - kw.length - 1) + 1 := by omega
  rw [he, List.take_succ_cons]
  simp

/-- Every fallback anchor pattern opens with `kw\s+…`, so `.split()[0]`
of its matched text is exactly the keyword. -/
theorem splitFirst_of_kw_ws (kw l rest a b : List Char)
    (hkw : ∀ c ∈ kw, isPySpace c = false)
    (hlit : lit kw l = some a) (hws : wsPlus a = some b)
    (hrest : rest.length ≤ b.length) :
    splitFirst (l.take (l.length - rest.length)) = String.mk kw := by
  have hla := lit_sound kw l a hlit
  obtain ⟨w, haw, hwne, hwall⟩ := wsPlus_sound a b hws
  cases w with
  | nil => exact absurd rfl hwne
  | cons wc wr =>
    have hl2 : l = kw ++ wc :: (wr ++ b) := by
      rw [hla, haw]
      simp
    subst hl2
    have hlen1 : (kw ++ wc :: (wr ++ b)).length
        = kw.length + (1 + (wr.length + b.length)) := by
      simp [List.length_append, List.length_cons]
      omega
    rw [take_big_split kw wc (wr ++ b) _ (by omega)]
    unfold splitFirst
    congr 1
    apply takeWhile_append_stop
    · intro c hc
      simp [hkw c hc]
    · simp [hwall wc (by simp)]

theorem fZeroGroups_split (kw : List Char) (hkw : ∀ c ∈ kw, isPySpace c = false) :
    ∀ (l rest : List Char) (gs : List (List Char)), fZeroGroups kw l = some (rest, gs) →
      splitFirst (l.take (l.length - rest.length)) = String.mk kw := by
  intro l rest gs h
  unfold fZeroGroups at h
  cases h1 : lit kw l with
  | none => rw [h1] at h; exact absurd h (by simp)
  | some a =>
    rw [h1] at h
    dsimp only [] at h
    cases h2 : wsPlus a with
    | none => rw [h2] at h; exact absurd h (by simp)
    | some b =>
      rw [h2] at h
      dsimp only [] at h
      cases b with
      | nil => exact absurd h (by simp)
      | cons c r =>
        dsimp only [] at h
        by_cases hc : (c == lbrace) = true
        · rw [if_pos hc] at h
          simp only [Option.some.injEq, Prod.mk.injEq] at h
          obtain ⟨h3, _⟩ := h
          subst h3
          exact splitFirst_of_kw_ws kw l r a (c :: r) hkw h1 h2
            (by simp only [List.length_cons]; omega)
        · rw [if_neg hc] at h
          exact absurd h (by simp)

theorem fOneGroup_split (kw : List Char) (hkw : ∀ c ∈ kw, isPySpace c = false) :
    ∀ (l rest : List Char) (gs : List (List Char)), fOneGroup kw l = some (rest, gs) →
      splitFirst (l.take (l.length - rest.length)) = String.mk kw := by
  intro l rest gs h
  unfold fOneGroup at h
  cases h1 : lit kw l with
  | none => rw [h1] at h; exact absurd h (by simp)
  | some a =>
    rw [h1] at h
    dsimp only [] at h
    cases h2 : wsPlus a with
    | none => rw [h2] at h; exact absurd h (by simp)
    | some b =>
      rw [h2] at h
      dsimp only [] at h
      cases h3 : quotedGroup b with
      | none => rw [h3] at h; exact absurd h (by simp)
      | some p =>
        rw [h3] at h
        dsimp only [] at h
        simp only [Option.some.injEq, Prod.mk.injEq] at h
        obtain ⟨h4, _⟩ := h
        subst h4
        exact splitFirst_of_kw_ws kw l p.1 a b hkw h1 h2
          (quotedGroup_len b p.1 p.2 (by rw [h3]))

theorem fTwoGroups_split (kw : List Char) (hkw : ∀ c ∈ kw, isPySpace c = false) :
    ∀ (l rest : List Char) (gs : List (List Char)), fTwoGroups kw l = some (rest, gs) →
      splitFirst (l.take (l.length - rest.length)) = String.mk kw := by
  intro l rest gs h
  unfold fTwoGroups at h
  cases h1 : lit kw l with
  | none => rw [h1] at h; exact absurd h (by simp)
  | some a =>
    rw [h1] at h
    dsimp only [] at h
    cases h2 : wsPlus a with
    | none => rw [h2] at h; exact absurd h (by simp)
    | some b =>
      rw [h2] at h
      dsimp only [] at h
      cases h3 : quotedGroup b with
      | none => rw [h3] at h; exact absurd h (by simp)
      | some p =>
        rw [h3] at h
        dsimp only [] at h
        cases h4 : wsPlus p.1 with
        | none => rw [h4] at h; exact absurd h (by simp)
        | some d =>
          rw [h4] at h
          dsimp only [] at h
          cases h5 : quotedGroup d with
          | none => rw [h5] at h; exact absurd h (by simp)
          | some p2 =>
            rw [h5] at h
            dsimp only [] at h
            simp only [Option.some.injEq, Prod.mk.injEq] at h
            obtain ⟨h6, _⟩ := h
            subst h6
            have l5 := quotedGroup_len d p2.1 p2.2 (by rw [h5])
            have l4 := wsPlus_len p.1 d h4
            have l3 := quotedGroup_len b p.1 p.2 (by rw [h3])
            exact splitFirst_of_kw_ws kw l p2.1 a b hkw h1 h2 (by omega)

theorem fProvider_split :
    ∀ (l rest : List Char) (gs : List (List Char)), fProvider l = some (rest, gs) →
      splitFirst (l.take (l.length - rest.length)) = String.mk providerStr.toList := by
  intro l rest gs h
  unfold fProvider at h
  cases h1 : lit providerStr.toList l with
  | none => rw [h1] at h; exact absurd h (by simp)
  | some a =>
    rw [h1] at h
    dsimp only [] at h
    cases h2 : wsPlus a with
    | none => rw [h2] at h; exact absurd h (by simp)
    | some b =>
      rw [h2] at h
      dsimp only [] at h
      have hkw : ∀ c ∈ providerStr.toList, isPySpace c = false := by decide
      cases b with
      | nil =>
        exact absurd h (by simp [providerCore])
      | cons c r =>
        dsimp only [] at h
        by_cases hc : (c == dquote) = true
        · rw [if_pos hc] at h
          have hlen := providerCore_len_le r rest gs h
          exact splitFirst_of_kw_ws providerStr.toList l rest a (c :: r) hkw h1 h2
            (by simp only [List.length_cons]; omega)
        · rw [if_neg hc] at h
          have hlen := providerCore_len_le (c :: r) rest gs h
          exact splitFirst_of_kw_ws providerStr.toList l rest a (c :: r) hkw h1 h2 hlen

theorem reSearchG_elem {α : Type} (m : List Char → Option (List Char × α)) :
    ∀ (l : List Char) (i : Nat) (t : List Char) (a : α),
      reSearchG m l = some (i, t, a) →
      ∃ rest, m (l.drop i) = some (rest, a)
        ∧ t = (l.drop i).take ((l.drop i).length - rest.length) := by
  intro l
  induction l with
  | nil =>
    intro i t a h
    simp only [reSearchG] at h
    cases hm : m [] with
    | none => rw [hm] at h; exact absurd h (by simp)
    | some p =>
      rw [hm] at h
      simp only [Option.some.injEq, Prod.mk.injEq] at h
      obtain ⟨h1, h2, h3⟩ := h
      subst h1
      subst h2
      subst h3
      exact ⟨p.1, by simpa using hm, by simp⟩
  | cons c r ih =>
    intro i t a h
    simp only [reSearchG] at h
    cases hm : m (c :: r) with
    | some p =>
      rw [hm] at h
      simp only [Option.some.injEq, Prod.mk.injEq] at h
      obtain ⟨h1, h2, h3⟩ := h
      subst h1
      subst h2
      subst h3
      exact ⟨p.1, by simpa using hm, by simp⟩
    | none =>
      rw [hm] at h
      cases hr : reSearchG m r with
      | none => rw [hr] at h; exact absurd h (by simp)
      | some q =>
        rw [hr] at h
        simp only [Option.some.injEq, Prod.mk.injEq] at h
        obtain ⟨h1, h2, h3⟩ := h
        obtain ⟨rest, hm2, ht⟩ := ih q.1 q.2.1 q.2.2 (by rw [hr])
        subst h1
        subst h3
        refine ⟨rest, ?_, ?_⟩
        · simpa [List.drop_succ_cons] using hm2
        · rw [← h2, ht]
          simp [List.drop_succ_cons]

theorem findIterG_elem {α : Type} (m : List Char → Option (List Char × α)) :
    ∀ (fuel base : Nat) (l : List Char) (e : Nat × List Char × α),
      e ∈ findIterG m fuel base l →
      ∃ l2 rest, m l2 = some (rest, e.2.2)
        ∧ e.2.1 = l2.take (l2.length - rest.length) := by
  intro fuel
  induction fuel with
  | zero =>
    intro base l e h
    simp [findIterG] at h
  | succ f ih =>
    intro base l e h
    simp only [findIterG] at h
    cases hs : reSearchG m l with
    | none => rw [hs] at h; simp at h
    | some p =>
      rw [hs] at h
      simp only [List.mem_cons] at h
      cases h with
      | inl he =>
        obtain ⟨rest, hm, ht⟩ := reSearchG_elem m l p.1 p.2.1 p.2.2 (by rw [hs])
        subst he
        exact ⟨l.drop p.1, rest, hm, ht⟩
      | inr he => exact ih _ _ _ he

/-! Key-set lemmas for the structure tree. -/

theorem keys_setAssoc (k : String) (v : FTree) :
    ∀ (l : List (String × FTree)) (k2 : String),
      k2 ∈ (setAssoc k v l).map (fun p => p.1) → k2 ∈ l.map (fun p => p.1) ∨ k2 = k := by
  intro l
  induction l with
  | nil =>
    intro k2 h
    simp [setAssoc] at h
    simp [h]
  | cons p r ih =>
    intro k2 h
    simp only [setAssoc] at h
    by_cases hk : p.1 = k
    · rw [if_pos hk] at h
      simp only [List.map_cons, List.mem_cons] at h ⊢
      tauto
    · rw [if_neg hk] at h
      simp only [List.map_cons, List.mem_cons] at h ⊢
      cases h with
      | inl h => tauto
      | inr h =>
        cases ih k2 h with
        | inl h => tauto
        | inr h => tauto

theorem keys_fSet (k : String) (v : FTree) (t : FTree) (k2 : String)
    (h : k2 ∈ (fSet k v t).keys) : k2 ∈ t.keys ∨ k2 = k := by
  cases t with
  | node l => exact keys_setAssoc k v l k2 h

theorem keys_fEnsure (k : String) (t : FTree) (k2 : String)
    (h : k2 ∈ (fEnsure k t).keys) : k2 ∈ t.keys ∨ k2 = k := by
  unfold fEnsure at h
  by_cases hc : t.keys.contains k = true
  · rw [if_pos hc] at h
    exact Or.inl h
  · rw [if_neg hc] at h
    exact keys_fSet k (FTree.node []) t k2 h

theorem keys_varFold (bt : String) :
    ∀ (vs : List (List Char)) (st : FTree) (k2 : String),
      k2 ∈ (vs.foldl
        (fun s v => fSet bt (fSet (String.mk v) (FTree.node []) (fGet bt s)) s) st).keys →
      k2 ∈ st.keys ∨ k2 = bt := by
  intro vs
  induction vs with
  | nil =>
    intro st k2 h
    exact Or.inl h
  | cons v r ih =>
    intro st k2 h
    simp only [List.foldl_cons] at h
    cases ih _ k2 h with
    | inl h2 => exact keys_fSet bt _ st k2 h2
    | inr h2 => exact Or.inr h2

theorem keys_fStep (raw : List Char) (st : FTree) (m : Nat × List Char × List (List Char))
    (k2 : String) (h : k2 ∈ (fStep raw st m).keys) :
    k2 ∈ st.keys ∨ k2 = splitFirst m.2.1 := by
  unfold fStep at h
  rcases m with ⟨pos, mt, gs⟩
  match gs with
  | [g1, g2] =>
    simp only at h
    rcases keys_fSet _ _ _ _ h with h2 | h2
    · rcases keys_fEnsure _ _ _ h2 with h3 | h3
      · exact Or.inl h3
      · exact Or.inr h3
    · exact Or.inr h2
  | [g1] =>
    simp only at h
    rcases keys_fSet _ _ _ _ h with h2 | h2
    · rcases keys_fEnsure _ _ _ h2 with h3 | h3
      · exact Or.inl h3
      · exact Or.inr h3
    · exact Or.inr h2
  | [] =>
    simp only at h
    by_cases hl : (splitFirst mt == localsStr) = true
    · rw [if_pos hl] at h
      have hbt : splitFirst mt = localsStr := by simpa using hl
      rcases keys_varFold _ _ _ _ h with h2 | h2
      · by_cases htf : (splitFirst mt == tfStr && occursIn rpStr.toList ((raw.drop pos).take 200)) = true
        · rw [if_pos htf] at h2
          rcases keys_fSet _ _ _ _ h2 with h3 | h3
          · rcases keys_fEnsure _ _ _ h3 with h4 | h4
            · exact Or.inl h4
            · exact Or.inr h4
          · exact Or.inr h3
        · rw [if_neg htf] at h2
          rcases keys_fEnsure _ _ _ h2 with h3 | h3
          · exact Or.inl h3
          · exact Or.inr h3
      · rw [hbt] at h2 ⊢
        exact Or.inr h2
    · rw [if_neg hl] at h
      by_cases htf : (splitFirst mt == tfStr && occursIn rpStr.toList ((raw.drop pos).take 200)) = true
      · rw [if_pos htf] at h
        rcases keys_fSet _ _ _ _ h with h3 | h3
        · rcases keys_fEnsure _ _ _ h3 with h4 | h4
          · exact Or.inl h4
          · exact Or.inr h4
        · exact Or.inr h3
      · rw [if_neg htf] at h
        rcases keys_fEnsure _ _ _ h with h3 | h3
        · exact Or.inl h3
        · exact Or.inr h3
  | g1 :: g2 :: g3 :: gr =>
    simp only at h
    by_cases hl : (splitFirst mt == localsStr) = true
    · rw [if_pos hl] at h
      have hbt : splitFirst mt = localsStr := by simpa using hl
      rcases keys_varFold _ _ _ _ h with h2 | h2
      · by_cases htf : (splitFirst mt == tfStr && occursIn rpStr.toList ((raw.drop pos).take 200)) = true
        · rw [if_pos htf] at h2
          rcases keys_fSet _ _ _ _ h2 with h3 | h3
          · rcases keys_fEnsure _ _ _ h3 with h4 | h4
            · exact Or.inl h4
            · exact Or.inr h4
          · exact Or.inr h3
        · rw [if_neg htf] at h2
          rcases keys_fEnsure _ _ _ h2 with h3 | h3
          · exact Or.inl h3
          · exact Or.inr h3
      · rw [hbt] at h2 ⊢
        exact Or.inr h2
    · rw [if_neg hl] at h
      by_cases htf : (splitFirst mt == tfStr && occursIn rpStr.toList ((raw.drop pos).take 200)) = true
      · rw [if_pos htf] at h
        rcases keys_fSet _ _ _ _ h with h3 | h3
        · rcases keys_fEnsure _ _ _ h3 with h4 | h4
          · exact Or.inl h4
          · exact Or.inr h4
        · exact Or.inr h3
      · rw [if_neg htf] at h
        rcases keys_fEnsure _ _ _ h with h3 | h3
        · exact Or.inl h3
        · exact Or.inr h3

theorem foldl_fStep_keys (raw : List Char) :
    ∀ (ms : List (Nat × List Char × List (List Char))) (st : FTree) (k : String),
      (∀ e ∈ ms, splitFirst e.2.1 ∈ knownKinds) →
      (∀ k2 ∈ st.keys, k2 ∈ knownKinds) →
      k ∈ (ms.foldl (fStep raw) st).keys → k ∈ knownKinds := by
  intro ms
  induction ms with
  | nil =>
    intro st k _ hst h
    exact hst k h
  | cons m r ih =>
    intro st k hms hst h
    simp only [List.foldl_cons] at h
    refine ih (fStep raw st m) k (fun e he => hms e (by simp [he])) ?_ h
    intro k2 hk2
    rcases keys_fStep raw st m k2 hk2 with h2 | h2
    · exact hst k2 h2
    · rw [h2]
      exact hms m (by simp)

/-! ## Claim theorems -/

/-- C9: if at edit-commit time the captured block text is not a literal
substring of the file's current content, the edit reports failure with a
message and the file content is byte-for-byte unchanged (no write). -/
theorem edit_block_content_stale_span (original block edited : String)
    (h : occursIn block.toList original.toList = false) :
    edit_block_content original block edited = (false, staleStr, original) := by
  simp only [String.toList] at h
  simp [edit_block_content, h]

theorem edit_block_content_stale_span_witness :
    occursIn csXy.toList csAbc.toList = false ∧
    edit_block_content csAbc csXy csZ = (false, staleStr, csAbc) :=
  ⟨by decide, edit_block_content_stale_span csAbc csXy csZ (by decide)⟩

/-- C3 (supporting theorem; the claim itself is a code bug, see
RESULTS): whenever the requested identity has no matching occurrence —
the terraform search fails, no locals block matches, or no general
pattern and no flexible pattern matches — `extract_block_content`
returns the literal not-found result.  (For identity strings containing
regex metacharacters the Python code instead raises `re.error`, because
`block_name` is interpolated without `re.escape`; this embedding covers
metacharacter-free names.) -/
theorem extract_block_content_not_found_cases :
    (∀ raw n : String, reSearchTxt terraformM raw.toList = none →
       extract_block_content raw tfStr n = nfStr) ∧
    (∀ raw n : String, localsIter raw.toList = [] →
       extract_block_content raw localsStr n = nfStr) ∧
    (∀ raw bt n : String, bt ≠ tfStr → bt ≠ localsStr →
       selectPat (patternsFor bt.toList n.toList) raw.toList = none →
       flexSearch bt.toList n.toList raw.toList = none →
       extract_block_content raw bt n = nfStr) := by
  refine ⟨?_, ?_, ?_⟩
  · intro raw n h
    simp only [String.toList] at h
    by_cases hn : n = rpStr
    · subst hn
      simp [extract_block_content, h]
    · simp [extract_block_content, h, hn]
  · intro raw n h
    simp only [String.toList] at h
    have hne : ¬(localsStr = tfStr) := by decide
    cases hb : (n == "") <;> simp [extract_block_content, hne, h, hb]
  · intro raw bt n h1 h2 h3 h4
    simp only [String.toList] at h3 h4
    simp [extract_block_content, h1, h2, h3, h4]

theorem extract_not_found_witness :
    selectPat (patternsFor resourceStr.toList bStr.toList) csNoBlocks.toList = none ∧
    flexSearch resourceStr.toList bStr.toList csNoBlocks.toList = none ∧
    extract_block_content csNoBlocks resourceStr bStr = nfStr :=
  ⟨by decide, by decide,
   extract_block_content_not_found_cases.2.2 csNoBlocks resourceStr bStr
     (by decide) (by decide) (by decide) (by decide)⟩

/-- C4: locating `(terraform, required_providers)`: when a
required_providers section is found inside the located terraform block's
text, exactly that inner block text is returned; when the terraform
block is found but the inner section is not, the whole terraform block
text is returned; when no terraform block is found, the not-found result
is returned. -/
theorem terraform_required_providers_locate :
    (∀ raw : String, ∀ (p : Nat) (t : List Char),
       reSearchTxt terraformM raw.toList = some (p, t) →
       ∀ (q : Nat) (r : List Char), reSearchTxt requiredProvidersM t = some (q, r) →
       extract_block_content raw tfStr rpStr = String.mk r) ∧
    (∀ raw : String, ∀ (p : Nat) (t : List Char),
       reSearchTxt terraformM raw.toList = some (p, t) →
       reSearchTxt requiredProvidersM t = none →
       extract_block_content raw tfStr rpStr = String.mk t) ∧
    (∀ raw : String, reSearchTxt terraformM raw.toList = none →
       extract_block_content raw tfStr rpStr = nfStr) := by
  refine ⟨?_, ?_, ?_⟩
  · intro raw p t h q r h2
    simp only [String.toList] at h
    simp [extract_block_content, h, h2]
  · intro raw p t h h2
    simp only [String.toList] at h
    simp [extract_block_content, h, h2]
  · intro raw h
    simp only [String.toList] at h
    simp [extract_block_content, h]

theorem terraform_required_providers_witness :
    reSearchTxt terraformM csTfNested.toList = some (0, csTfNested.toList) ∧
    extract_block_content csTfNested tfStr rpStr = csRpInner := by
  refine ⟨by decide, ?_⟩
  have h := terraform_required_providers_locate.1 csTfNested 0 csTfNested.toList
    (by decide) 12 csRpInner.toList (by decide)
  simpa using h

/-- C5 (amended): the locals matches are all `locals { … }` occurrences
anywhere in the text (not only top level).  If exactly one such match
exists, or the requested name is empty, the first match is returned;
otherwise the first match containing an assignment to the name
(optionally quoted, followed by `=`), else the first match; and if there
is no match, the not-found result. -/
theorem locals_locate_cases :
    (∀ raw n : String, localsIter raw.toList = [] →
       extract_block_content raw localsStr n = nfStr) ∧
    (∀ raw n : String, ∀ x, localsIter raw.toList = [x] →
       extract_block_content raw localsStr n = String.mk x.2) ∧
    (∀ raw : String, ∀ x xs, localsIter raw.toList = x :: xs →
       extract_block_content raw localsStr emptyStr = String.mk x.2) ∧
    (∀ raw n : String, ∀ x y ys, n ≠ emptyStr → localsIter raw.toList = x :: y :: ys →
       extract_block_content raw localsStr n =
         String.mk ((((x :: y :: ys).find? (fun m => hasVarAssign n.toList m.2)).getD x).2)) := by
  have hne : ¬(localsStr = tfStr) := by decide
  refine ⟨?_, ?_, ?_, ?_⟩
  · intro raw n h
    simp only [String.toList] at h
    cases hb : (n == "") <;> simp [extract_block_content, hne, h, hb]
  · intro raw n x h
    simp only [String.toList] at h
    simp [extract_block_content, hne, h]
  · intro raw x xs h
    simp only [String.toList] at h
    simp [extract_block_content, hne, h, emptyStr]
  · intro raw n x y ys hn h
    simp only [String.toList] at h ⊢
    have hb : (n == "") = false := by
      cases he : (n == "")
      · rfl
      · exact absurd (by simpa [emptyStr] using he) hn
    have hlen : ¬((x :: y :: ys).length = 1) := by
      simp only [List.length_cons]
      omega
    simp [extract_block_content, hne, h, hb, hlen]
    cases hf : (x :: y :: ys).find? (fun m => hasVarAssign n.data m.2) <;> simp [hf]

theorem locals_locate_witness :
    localsIter csLocalsTwoVars.toList = [(0, csLocalsTwoVars.toList)] ∧
    extract_block_content csLocalsTwoVars localsStr bStr = csLocalsTwoVars := by
  refine ⟨by decide, ?_⟩
  have h := locals_locate_cases.2.1 csLocalsTwoVars bStr (0, csLocalsTwoVars.toList) (by decide)
  simpa using h

/-- C5 counterexample: the locals pattern also matches a `locals { … }`
nested inside another block; here the text has no top-level locals block
at all, yet the locator returns the nested one instead of not-found. -/
theorem locals_nested_counterexample :
    extract_block_content csLocalsNested localsStr emptyStr = csLocalsNestedBlock ∧
    csLocalsNestedBlock ≠ nfStr := ⟨by decide, by decide⟩

/-- C2 (amended): locating kind terraform (whole-block identity) returns
the span starting at the terraform keyword and ending at the closing
brace matching the block's opening brace — provided the braces inside
the block nest at most two levels deep (three open braces in total, the
bound built into the pattern).  The hypothesis `braceBlockOk 3 body`
states exactly that bounded-depth well-bracketing; the count conjuncts
certify that the returned span's final `}` is the matching close.
Deeper nesting returns not-found (see the counterexample). -/
theorem terraform_block_locate_bounded_depth
    (pre ws body post : List Char)
    (hpre : ∀ p, p < pre.length →
      terraformM ((pre ++ (tfStr.toList ++ (ws ++ (body ++ post)))).drop p) = none)
    (hws : ∀ c ∈ ws, isPySpace c = true)
    (hbody : braceBlockOk 3 body = true) :
    extract_block_content
        (String.mk (pre ++ (tfStr.toList ++ (ws ++ (body ++ post))))) tfStr emptyStr
      = String.mk (tfStr.toList ++ (ws ++ body)) ∧
    body.count lbrace = body.count rbrace ∧
    (∀ k, 0 < k → k < body.length → (body.take k).count rbrace < (body.take k).count lbrace) := by
  obtain ⟨t, hbt, ht⟩ := braceBlockOk_elim hbody
  refine ⟨?_, (braceBlockOk_balanced hbody).1, (braceBlockOk_balanced hbody).2⟩
  have hdropPre :
      (pre ++ (tfStr.toList ++ (ws ++ (body ++ post)))).drop pre.length
        = tfStr.toList ++ (ws ++ (body ++ post)) := List.drop_left pre _
  have hm : terraformM
      ((pre ++ (tfStr.toList ++ (ws ++ (body ++ post)))).drop pre.length) = some post := by
    rw [hdropPre, hbt]
    exact terraformM_at ws t post hws ht
  have hk : pre.length ≤ (pre ++ (tfStr.toList ++ (ws ++ (body ++ post)))).length := by
    simp [List.length_append]
  have hsearch := reSearchTxt_least terraformM _ pre.length post hpre hm hk
  have htake :
      ((pre ++ (tfStr.toList ++ (ws ++ (body ++ post)))).drop pre.length).take
        (((pre ++ (tfStr.toList ++ (ws ++ (body ++ post)))).drop pre.length).length
          - post.length)
      = tfStr.toList ++ (ws ++ body) := by
    rw [hdropPre]
    have hgrp : tfStr.toList ++ (ws ++ (body ++ post))
        = (tfStr.toList ++ (ws ++ body)) ++ post := by
      simp [List.append_assoc]
    rw [hgrp, List.length_append, Nat.add_sub_cancel, List.take_left]
  rw [htake] at hsearch
  have hne : ¬(emptyStr = rpStr) := by decide
  simp only [String.toList] at hsearch
  simp [extract_block_content, hne, String.toList, hsearch]

theorem terraform_block_locate_witness :
    extract_block_content
        (String.mk (csPre.toList ++ (tfStr.toList ++ (csWs.toList ++ (csBody.toList ++ csPost.toList)))))
        tfStr emptyStr
      = String.mk (tfStr.toList ++ (csWs.toList ++ csBody.toList)) :=
  (terraform_block_locate_bounded_depth csPre.toList csWs.toList csBody.toList csPost.toList
    (by decide) (by decide) (by decide)).1

/-- C2 counterexample: this text is exactly one terraform block (four
levels of brace nesting), but the bounded-depth pattern does not match
it, so the locator returns not-found instead of the block's span. -/
theorem terraform_depth_four_counterexample :
    extract_block_content csTfDeep tfStr emptyStr = nfStr ∧ nfStr ≠ csTfDeep :=
  ⟨by decide, by decide⟩

/-- C7 (amended): for an equals-style match selected at `start` with its
`=` at `eq`, the returned span starts at `start` and its end is
determined as follows from the least position `m` of a next top-level
block keyword (resource|provider|variable|output|locals|module|data) at
a line start in the text after the `=`: when no newline precedes
position `eq+m`, or the last such newline is at or before `start`, the
span ends at `eq+m` (the newline preceding the keyword); when the last
newline strictly before `eq+m` lies after `start` — i.e. the equals
value spans several lines — the span ends at THAT newline, so the final
line of the value is excluded; when no further block keyword follows,
the span ends at end-of-text.  Surrounding whitespace (in particular
trailing blank lines) is stripped from the returned text. -/
theorem equals_span_end_spec (raw bt n : String) (start eq : Nat)
    (hbt1 : bt ≠ tfStr) (hbt2 : bt ≠ localsStr)
    (hsel : selectPat (patternsFor bt.toList n.toList) raw.toList = some (start, true))
    (heq : findCharFrom raw.toList eqCh start = some eq) :
    (nextBlockSearch (raw.toList.drop eq) = none →
       extract_block_content raw bt n = String.mk (pyStrip (raw.toList.drop start))) ∧
    (∀ m, nextBlockSearch (raw.toList.drop eq) = some m →
       nextKwAt (raw.toList.drop eq) m = true ∧
       ∀ j, j < m → nextKwAt (raw.toList.drop eq) j = false) ∧
    (∀ m, nextBlockSearch (raw.toList.drop eq) = some m →
       rfindNl raw.toList (eq + m) = none →
       extract_block_content raw bt n
         = String.mk (pyStrip ((raw.toList.drop start).take (eq + m - start)))) ∧
    (∀ m q, nextBlockSearch (raw.toList.drop eq) = some m →
       rfindNl raw.toList (eq + m) = some q →
       (raw.toList.getD q defCh = nlCh ∧
        ∀ j, q < j → j < eq + m → raw.toList.getD j defCh ≠ nlCh) ∧
       extract_block_content raw bt n
         = String.mk (pyStrip ((raw.toList.drop start).take
             ((if start < q then q else eq + m) - start)))) := by
  simp only [String.toList] at hsel heq ⊢
  have hext : extract_block_content raw bt n = equalsFinish raw.data start := by
    simp [extract_block_content, hbt1, hbt2, String.toList, hsel, finishFromPattern]
  refine ⟨?_, ?_, ?_, ?_⟩
  · intro hn
    rw [hext]
    simp [equalsFinish, heq, hn]
  · intro m hm
    exact nextBlockSearch_some _ m hm
  · intro m hm hr
    rw [hext]
    simp [equalsFinish, heq, hm, hr]
  · intro m q hm hq
    obtain ⟨_, h2, h3⟩ := rfindNl_some raw.data (eq + m) q hq
    refine ⟨⟨h2, h3⟩, ?_⟩
    rw [hext]
    simp [equalsFinish, heq, hm, hq]

theorem equals_span_end_witness :
    extract_block_content csEqSingle variableStr xStr = csEqSingleSpan := by
  have h := (equals_span_end_spec csEqSingle variableStr xStr 0 13 (by decide) (by decide)
    (by decide) (by decide)).2.2.1 3 (by decide) (by decide)
  exact h.trans (by decide)

/-- C7 counterexample: for a multi-line equals value followed by a
resource block, the `rfind` step walks back past the newline preceding
the keyword and cuts the last line of the value (the closing brace
line), so the span does not end at the newline preceding the keyword as
the claim states. -/
theorem equals_span_multiline_counterexample :
    extract_block_content csEqMulti variableStr xStr = csEqMultiGot ∧
    csEqMultiGot ≠ csEqMultiClaim :=
  ⟨by decide, by decide⟩

/-- C6: with two resource blocks whose instance names are `a` and `b`,
locating `(resource, b)` returns exactly the second block's span, from
its `resource` keyword through its matching closing brace. -/
theorem resource_second_block_locate :
    extract_block_content csTwoResources resourceStr bStr = csSecondBlock := by decide

/-- C8: when the depth counter started at a matched opening brace never
returns to zero before end-of-text (the hypothesis `hnz`, over every
prefix of the text after the brace), the brace scan returns the
not-found (incomplete block) result, and its final index stays strictly
below the text length — it never reads past the last character. -/
theorem brace_scan_unterminated_not_found (raw : List Char) (start ob : Nat)
    (hob : findOpenBrace raw start = some ob)
    (hnz : ∀ k, k ≤ (raw.drop (ob + 1)).length →
      (1 : Int) + listDelta ((raw.drop (ob + 1)).take k) ≠ 0) :
    braceFinish raw start = nfIbStr ∧
    ob + (bracketRun (raw.drop (ob + 1)) 1).2 < raw.length := by
  obtain ⟨hfst, hsnd⟩ := bracketRun_no_zero (raw.drop (ob + 1)) 1 hnz
  constructor
  · have hb : ((bracketRun (raw.drop (ob + 1)) 1).1 == 0) = false := by
      simpa using hfst
    simp [braceFinish, hob, hb]
  · have hlen : (raw.drop (ob + 1)).length = raw.length - (ob + 1) :=
      List.length_drop (ob + 1) raw
    have hoblt := findOpenBrace_lt raw start ob hob
    omega

theorem brace_scan_unterminated_witness :
    findOpenBrace csUnterminated.toList 0 = some 0 ∧
    braceFinish csUnterminated.toList 0 = nfIbStr := by
  refine ⟨by decide, ?_⟩
  exact (brace_scan_unterminated_not_found csUnterminated.toList 0 0 (by decide) (by decide)).1

/-- C1 (amended): the edit-commit substitution (Python `str.replace`)
replaces the first occurrence of the captured non-empty block text `s`
(at its least index `i`, certified by the prefix conjuncts) with the
edited text, keeps every byte before it, and then continues the same
substitution on the remainder after the occurrence — so later identical
occurrences are replaced as well, not left unchanged. -/
theorem edit_block_content_replaces_every_occurrence
    (original block edited : String) (i : Nat)
    (hne : block.toList ≠ [])
    (hocc : firstOccIdx block.toList original.toList = some i) :
    (edit_block_content original block edited).1 = true ∧
    (edit_block_content original block edited).2.2
      = String.mk (original.toList.take i ++ edited.toList
          ++ pyReplace (original.toList.drop (i + block.toList.length))
               block.toList edited.toList) ∧
    block.toList.isPrefixOf (original.toList.drop i) = true ∧
    (∀ j, j < i → block.toList.isPrefixOf (original.toList.drop j) = false) := by
  simp only [String.toList] at hne hocc ⊢
  obtain ⟨h1, h2, h3⟩ := pyReplace_firstOcc block.data edited.data hne original.data i hocc
  have hoc : occursIn block.data original.data = true :=
    occursIn_of_firstOcc block.data original.data i hocc
  refine ⟨?_, ?_, h2, h3⟩
  · simp [edit_block_content, String.toList, hoc]
  · simp [edit_block_content, String.toList, hoc, h1]

theorem edit_replace_witness :
    (edit_block_content csXabxab csAb csZup).1 = true ∧
    (edit_block_content csXabxab csAb csZup).2.2 = csXZxZ := by
  have h := edit_block_content_replaces_every_occurrence csXabxab csAb csZup 1
    (by decide) (by decide)
  exact ⟨h.1, h.2.1.trans (by decide)⟩

/-- C1 counterexample: with two occurrences of the captured text, the
commit step rewrites both (`"abab" → "cdcd"`), while replacing only the
first occurrence — what the claim states, modelled by
`replaceFirstOnly` — would give `"cdab"`. -/
theorem edit_replace_first_counterexample :
    (edit_block_content csAbab csAb csCd).2.2 = csCdcd ∧
    String.mk (replaceFirstOnly csAbab.toList csAb.toList csCd.toList) = csCdab ∧
    csCdcd ≠ csCdab :=
  ⟨by decide, by decide, by decide⟩

theorem patterns_fold_keys (rawL : List Char) :
    ∀ (ps : List (List Char × (List Char → Option (List Char × List (List Char))))),
      (∀ pm ∈ ps, String.mk pm.1 ∈ knownKinds ∧
        ∀ (l rest : List Char) (gs : List (List Char)), pm.2 l = some (rest, gs) →
          splitFirst (l.take (l.length - rest.length)) = String.mk pm.1) →
      ∀ (st : FTree) (k : String),
        (∀ k2 ∈ st.keys, k2 ∈ knownKinds) →
        k ∈ (ps.foldl
          (fun st pm =>
            (findIterG pm.2 (rawL.length + 1) 0 rawL).foldl (fStep rawL) st) st).keys →
        k ∈ knownKinds := by
  intro ps
  induction ps with
  | nil =>
    intro _ st k hst h
    exact hst k h
  | cons pm pr ih =>
    intro hps st k hst h
    simp only [List.foldl_cons] at h
    refine ih (fun q hq => hps q (by simp [hq])) _ k ?_ h
    intro k2 hk2
    refine foldl_fStep_keys rawL _ st k2 ?_ hst hk2
    intro e he
    obtain ⟨l2, rest, hm, ht⟩ := findIterG_elem pm.2 _ _ _ e he
    obtain ⟨hmem, hsplit⟩ := hps pm (by simp)
    rw [ht, hsplit l2 rest e.2.2 hm]
    exact hmem

/-- C10: every top-level key of the structure tree built by the
fallback extractor is one of the eight known block kinds (each anchor
pattern starts with its keyword followed by whitespace, and the key is
`.split()[0]` of the matched text). -/
theorem fallback_structure_keys_known (raw k : String)
    (h : k ∈ (extract_fallback_structure raw).keys) : k ∈ knownKinds := by
  unfold extract_fallback_structure at h
  refine patterns_fold_keys raw.toList fallbackPatterns ?_ (FTree.node []) k
    (by simp [FTree.keys]) h
  intro pm hpm
  simp only [fallbackPatterns, List.mem_cons, List.not_mem_nil, or_false] at hpm
  rcases hpm with rfl | rfl | rfl | rfl | rfl | rfl | rfl | rfl
  · exact ⟨by simp [knownKinds], fTwoGroups_split resourceStr.toList (by decide)⟩
  · exact ⟨by simp [knownKinds], fTwoGroups_split dataStr.toList (by decide)⟩
  · exact ⟨by simp [knownKinds], fOneGroup_split variableStr.toList (by decide)⟩
  · exact ⟨by simp [knownKinds], fOneGroup_split outputStr.toList (by decide)⟩
  · exact ⟨by simp [knownKinds], fProvider_split⟩
  · exact ⟨by simp [knownKinds], fOneGroup_split moduleStr.toList (by decide)⟩
  · exact ⟨by simp [knownKinds], fZeroGroups_split localsStr.toList (by decide)⟩
  · exact ⟨by simp [knownKinds], fZeroGroups_split tfStr.toList (by decide)⟩

theorem fallback_structure_keys_witness :
    localsStr ∈ (extract_fallback_structure csLocalsNestedBlock).keys ∧
    localsStr ∈ knownKinds :=
  ⟨by decide, fallback_structure_keys_known csLocalsNestedBlock localsStr (by decide)⟩

end TerraformTui
